import Mathlib

/-!
Verification development for the into-ledger transaction categorizer.

The Go sources (main.go and friends) are shallowly embedded here:

* Go `time.Time` values are modelled as `Int` nanoseconds since the epoch in
  every component that only compares, sorts or shifts times
  (`Before`/`After`/`Add`/`Sub` become `<`/`>`/`+`/`-`).  The CSV ingestion
  section additionally models a `time.Time` at the wall-clock component level
  (`GoTime`), because the midnight normalization there zeroes components.
* Go `float64` amounts and scores are modelled as `ℚ` with exact arithmetic;
  the source only adds, divides, negates, takes absolute values and compares
  them (IEEE rounding is not modelled, and `ℚ` has no negative zero or NaN).
  The single square root in `topHits` (the sample standard deviation) is
  modelled by comparing squares: for `v ≥ 0` the source test
  `abs d > sqrt v` holds iff `d^2 > v`, so the embedding stores the sample
  variance and squares the gap.
* Go slices become `List`, in-place mutation becomes explicit rebuilding,
  `sort.Sort`/`sort.Slice` (which only promise an ordering consistent with
  the supplied comparator) are modelled by `List.insertionSort` over the
  total preorder induced by the comparator, and the bolt key-value store
  becomes an association list ordered by key.
* Fatal exits (`log.Fatal`, `checkf`, `assertf`) become `Except`/truncated
  results where a claim depends on them, as noted at each definition.
-/

/-- Character filter of the source function `sanitize` (main.go): the
`strings.Map` callback keeps ASCII lower/upper letters, digits and the five
characters star, colon, slash, dot, dash, and deletes (returns -1 for) every
other rune. -/
def keepRune (c : Char) : Bool :=
  (('a' ≤ c && c ≤ 'z') || ('A' ≤ c && c ≤ 'Z') || ('0' ≤ c && c ≤ '9')
    || c == '*' || c == ':' || c == '/' || c == '.' || c == '-')

/-- Embedding of `sanitize` (main.go): `strings.Map` with a callback that
returns -1 deletes the rune, so the function is the filter of `keepRune`
over the rune sequence. -/
def sanitize (s : String) : String :=
  ⟨s.data.filter keepRune⟩

/-- Embedding of the package-level regexp `lettersOnly = [^a-zA-Z]+` applied
as `ReplaceAllString(s, "")` (main.go): every character that is not an ASCII
letter is removed. -/
def lettersOnly (s : String) : String :=
  ⟨s.data.filter (fun c => ('a' ≤ c && c ≤ 'z') || ('A' ≤ c && c ≤ 'Z'))⟩

/-- Spec-side character class for the sanitizer claim: ASCII letters, digits,
and the characters star, colon, slash, dot, dash (spec section 4.1). -/
def specSanChar (c : Char) : Prop :=
  ('a' ≤ c ∧ c ≤ 'z') ∨ ('A' ≤ c ∧ c ≤ 'Z') ∨ ('0' ≤ c ∧ c ≤ '9')
    ∨ c = '*' ∨ c = ':' ∨ c = '/' ∨ c = '.' ∨ c = '-'

instance (c : Char) : Decidable (specSanChar c) := by
  unfold specSanChar; infer_instance

/-- Embedding of the struct `Txn` (main.go).  `Date` is nanoseconds since the
epoch, `Cur` is the signed amount, `Key` models the 16 random key bytes as a
number.  The fields `skipClassification` and `Account` are omitted: no claim
touches them.  `AISuggestions` keeps only the category names; the confidence
part of `CategoryScore` is only displayed, never branched on, in the code
paths modelled here. -/
structure Txn where
  Date : Int
  Desc : String
  To : String
  From : String
  Cur : ℚ
  CurName : String
  Key : Nat
  Done : Bool
  AIReason : String
  AISuggestions : List String
deriving DecidableEq, Repr, Inhabited

/-- Embedding of `math.Signbit` on a `ℚ` amount.  `ℚ` has no negative zero,
so the sign bit is simply strict negativity. -/
def signbit (q : ℚ) : Bool :=
  q < 0

/-- Nanoseconds in one hour, matching Go's `time.Hour`. -/
def nanosPerHour : Int := 3600 * 1000000000

/-- Embedding of the closure `within` in `removeDuplicates` (main.go):
`math.Abs(float64(a.Sub(b))) <= float64(allowed)`, with durations exact. -/
def within (allowed : Int) (a b : Int) : Bool :=
  ((a - b).natAbs : Int) ≤ allowed

/-- One candidate/history comparison from the inner loop of
`removeDuplicates` (main.go): equal sanitized descriptions, dates within the
tolerance, and exactly equal absolute amounts. -/
def dupMatch (allowed : Int) (t pr : Txn) : Bool :=
  sanitize t.Desc == sanitize pr.Desc && within allowed pr.Date t.Date
    && |pr.Cur| == |t.Cur|

/-- Embedding of the inner scan of `removeDuplicates` (main.go): walk the
window `prev` in order, break as soon as `pr.Date` is after
`t.Date + allowed`, and stop with success at the first match. -/
def isDup (allowed : Int) (t : Txn) : List Txn → Bool
  | [] => false
  | pr :: rest =>
    if t.Date + allowed < pr.Date then false
    else if dupMatch allowed t pr then true
    else isDup allowed t rest

/-- Date order used by `byTime` (main.go); `Less` is `Date.Before`, and the
library sort promises a result ordered by the induced total preorder. -/
def dateLe (a b : Txn) : Prop :=
  a.Date ≤ b.Date

instance : DecidableRel dateLe := by
  unfold dateLe; infer_instance

instance : IsTotal Txn dateLe :=
  ⟨fun a b => Int.le_total a.Date b.Date⟩

instance : IsTrans Txn dateLe :=
  ⟨fun _ _ _ h1 h2 => le_trans h1 h2⟩

/-- Embedding of `sort.Sort(byTime(...))` (main.go).  Go's sort only
guarantees an ordering consistent with `Less`; `insertionSort` over the
induced preorder is one such ordering. -/
def sortByTime (l : List Txn) : List Txn :=
  List.insertionSort dateLe l

/-- Date of the first transaction of a list (the Go code indexes `txns[0]`
after checking the list is non-empty). -/
def headDate : List Txn → Int
  | [] => 0
  | t :: _ => t.Date

/-- Embedding of the window computation of `removeDuplicates` (main.go):
`prev` starts as the whole history and is replaced by the suffix starting at
the first entry whose date is strictly after `bound`; when no entry is
strictly after `bound`, the whole history remains. -/
def findSuffix (hist : List Txn) (bound : Int) : List Txn :=
  match hist.findIdx? (fun t => bound < t.Date) with
  | some i => hist.drop i
  | none => hist

/-- Embedding of `removeDuplicates` (main.go).  Both lists are sorted by
date, the window lower bound is the earliest candidate date minus 24 hours,
and each candidate is kept iff the window scan finds no match. -/
def removeDuplicates (hist txns : List Txn) (allowed : Int) : List Txn :=
  match txns with
  | [] => txns
  | _ :: _ =>
    let histS := sortByTime hist
    let txnsS := sortByTime txns
    let bound := headDate txnsS - 24 * nanosPerHour
    let prev := findSuffix histS bound
    txnsS.filter (fun t => !(isDup allowed t prev))

/-- Spec-side reading of claim C7's window: the suffix of the history
beginning at the first entry whose date is greater than OR EQUAL to the
bound (`List.findIdx` returns the length when nothing matches, so the window
is then empty). -/
def claimWindow (hist : List Txn) (bound : Int) : List Txn :=
  hist.drop (hist.findIdx (fun e => bound ≤ e.Date))

/-- Spec-side reading of the per-candidate scan portion: the entries of the
window up to (and not past) the first one whose date exceeds the candidate
date plus the tolerance. -/
def scanPortion (allowed : Int) (t : Txn) (w : List Txn) : List Txn :=
  w.takeWhile (fun pr => pr.Date ≤ t.Date + allowed)

/-- Pairing of scores with their class positions, as built by the first loop
of `topHits` (main.go): `pairs = append(pairs, pair{score, pos})`. -/
def mkPairs : List ℚ → Nat → List (ℚ × Nat)
  | [], _ => []
  | s :: rest, i => (s, i) :: mkPairs rest (i + 1)

/-- Order guaranteed by `sort.Sort(byScore(pairs))` (main.go): `Less` is
score strict-greater, so the sorted output is pairwise
score-greater-or-equal. -/
def scoreGe (a b : ℚ × Nat) : Prop :=
  b.1 ≤ a.1

instance : DecidableRel scoreGe := by
  unfold scoreGe; infer_instance

instance : IsTotal (ℚ × Nat) scoreGe :=
  ⟨fun a b => le_total b.1 a.1⟩

instance : IsTrans (ℚ × Nat) scoreGe :=
  ⟨fun _ _ _ h1 h2 => le_trans h2 h1⟩

/-- Mean of the scores, as accumulated by `topHits` (main.go):
`mean /= float64(len(scores))`. -/
def scoreMean (scores : List ℚ) : ℚ :=
  scores.sum / (scores.length : ℚ)

/-- Sample variance of the scores, as accumulated by `topHits` (main.go):
`stddev += diff*diff` then `stddev /= float64(len(scores)-1)`.  The source
then takes `math.Sqrt`; this embedding keeps the variance and compares
squared gaps against it, which is equivalent over the reals since the
variance is non-negative. -/
def sampleVar (scores : List ℚ) : ℚ :=
  (scores.map (fun s => (s - scoreMean scores) ^ 2)).sum
    / ((scores.length : ℚ) - 1)

/-- Score pairs sorted best-first, as after `sort.Sort(byScore(pairs))`
(main.go). -/
def sortedScorePairs (scores : List ℚ) : List (ℚ × Nat) :=
  List.insertionSort scoreGe (mkPairs scores 0)

/-- Embedding of the selection loop of `topHits` (main.go): walk the sorted
pairs, break as soon as the squared gap to the last kept score exceeds the
sample variance (source: `math.Abs(pr.score-last) > stddev`), otherwise keep
the pair and update the last kept score. -/
def walkHits (svar : ℚ) : List (ℚ × Nat) → ℚ → List (ℚ × Nat)
  | [], _ => []
  | p :: rest, last =>
    if svar < (p.1 - last) ^ 2 then []
    else p :: walkHits svar rest p.1

/-- Kept score pairs of `topHits` (main.go): at most
`maxResults = min(len(pairs), 5)` pairs are examined, the walk starts with
`last = pairs[0].score` (the source indexes the first pair; on an empty
score list this embedding returns the empty list where the source would
panic). -/
def topHitPairs (scores : List ℚ) : List (ℚ × Nat) :=
  match sortedScorePairs scores with
  | [] => []
  | p0 :: _ =>
    walkHits (sampleVar scores)
      ((sortedScorePairs scores).take (min scores.length 5)) p0.1

/-- Embedding of `topHits` (main.go) from the point where the classifier
scores are in hand: the kept pairs are mapped back to their classes through
`p.classes[pr.pos]` (out-of-range positions, impossible when the class and
score lists have equal length, default to the empty string). -/
def topHits (classes : List String) (scores : List ℚ) : List String :=
  (topHitPairs scores).map (fun p => classes.getD p.2 "")

/-- Model of the external `keys.Shortcuts` state (github.com/manishrjain/keys,
spec section 4.5): a sequence of (parent label, character, child label)
bindings.  The library itself is an external collaborator of the repository;
only its behaviour as specified is modelled, and each operation below that is
not in the repository sources carries a note. -/
structure Shortcuts where
  entries : List (String × Char × String)
deriving DecidableEq, Repr, Inhabited

/-- Lookup of a character inside one parent scope (`ks.MapsTo(ch, label)`).
The first matching binding wins; the assign operations below never create two
bindings of one character under one parent. -/
def mapsTo (ks : Shortcuts) (ch : Char) (label : String) : Option String :=
  (ks.entries.find? (fun e => e.1 == label && e.2.1 == ch)).map (fun e => e.2.2)

/-- Test whether a label has children (`ks.HasLabel(label)`): some binding
lives under it as parent. -/
def hasLabel (ks : Shortcuts) (label : String) : Bool :=
  ks.entries.any (fun e => e.1 == label)

/-- Test whether a child label is already bound under a parent. -/
def assignedUnder (ks : Shortcuts) (label parent : String) : Bool :=
  ks.entries.any (fun e => e.1 == parent && e.2.2 == label)

/-- Test whether a character is already taken under a parent. -/
def charUsed (ks : Shortcuts) (c : Char) (parent : String) : Bool :=
  ks.entries.any (fun e => e.1 == parent && e.2.1 == c)

/-- Digit characters zero through nine. -/
def digitChars : List Char :=
  ['0', '1', '2', '3', '4', '5', '6', '7', '8', '9']

/-- Modelled from the spec: `keys.Shortcuts.AutoAssign(label, parentLabel)`
(spec section 4.5) is not in the repository sources.  It is a no-op when the
label is already assigned under the parent; otherwise it binds the first
unused character of the label, then of the upper-cased label, then of the
digits zero to nine.  The source is fatal when every candidate character is
taken; that branch is unreachable in the runs verified here and is modelled
as a no-op. -/
def autoAssign (ks : Shortcuts) (label parent : String) : Shortcuts :=
  if assignedUnder ks label parent then ks
  else
    match (label.data ++ label.data.map Char.toUpper ++ digitChars).find?
        (fun c => !(charUsed ks c parent)) with
    | some c => ⟨ks.entries ++ [(parent, c, label)]⟩
    | none => ks

/-- Modelled from the spec: `keys.Shortcuts.BestEffortAssign(ch, label,
parentLabel)` (spec section 4.5) is not in the repository sources.  It
force-binds a fixed character to a label only when the character is free
under the parent. -/
def bestEffortAssign (ks : Shortcuts) (c : Char) (label parent : String) :
    Shortcuts :=
  if charUsed ks c parent then ks else ⟨ks.entries ++ [(parent, c, label)]⟩

/-- Embedding of `setDefaultMappings` (main.go): reserve the five navigation
characters under the root scope before any category assignment. -/
def setDefaultMappings (ks : Shortcuts) : Shortcuts :=
  let k1 := bestEffortAssign ks 'b' ".back" "default"
  let k2 := bestEffortAssign k1 'q' ".quit" "default"
  let k3 := bestEffortAssign k2 'a' ".show all" "default"
  let k4 := bestEffortAssign k3 's' ".skip" "default"
  bestEffortAssign k4 'g' ".google" "default"

/-- Exact value of `math.MaxFloat32`, the sentinel returned by the show-all
option of `printAndGetResult` (main.go).  The value is the integer
2^128 - 2^104, written as a literal so that it reduces in the kernel; the
lemma `maxFloat32_eq` below checks the closed form. -/
def maxFloat32 : ℚ :=
  340282346638528859811704183484516925440

/-- Embedding of `strings.Join(category, ":")` (main.go). -/
def joinColon : List String → String
  | [] => ""
  | [s] => s
  | s :: rest => s ++ ":" ++ joinColon rest

/-- Scope state at the head of the review loop of `printAndGetResult`
(main.go): at drill-down depth 2 the option TODO is auto-assigned into the
current scope before the prompt. -/
def scopeAt (ks : Shortcuts) (category : List String) (label : String) :
    Shortcuts :=
  if category.length == 2 then autoAssign ks "TODO" label else ks

/-- Result of one call of `printAndGetResult` (main.go): the numeric return
code, the reviewed transaction as left in memory, the sequence of values
written to the store, and the input characters not yet consumed. -/
structure PRes where
  res : ℚ
  txn : Txn
  writes : List Txn
  rest : List Char
deriving DecidableEq, Repr, Inhabited

/-- Embedding of `printAndGetResult` (main.go).  One character is read per
review-loop iteration.  Enter with both account sides set writes the
transaction to the store and only then marks it done in memory, returning
1.0, or 0.0 when the loop was re-entered through a drill-down (the `repeat`
flag).  Otherwise the character is resolved in the current scope: the
navigation options return their sentinel codes (back -1.0, skip 1.1, quit
999999.0, show-all MaxFloat32, google 0), a category label is appended to
the path and placed on the side selected by the amount sign, drilling one
level deeper when the label has children; an unmapped character returns 0
with nothing changed.  Exhausted input (the source would block on stdin)
returns 0. -/
def printAndGetResult (ks : Shortcuts) :
    List Char → String → List String → Bool → Txn → PRes
  | [], _, _, _, t => ⟨0, t, [], []⟩
  | ch :: rest, label, category, rep, t =>
    let ks1 := scopeAt ks category label
    if ch == '\n' && !(t.To == "") && !(t.From == "") then
      ⟨if rep then 0 else 1, { t with Done := true }, [t], rest⟩
    else
      match mapsTo ks1 ch label with
      | none => ⟨0, t, [], rest⟩
      | some opt =>
        if opt == ".back" then ⟨-1, t, [], rest⟩
        else if opt == ".skip" then ⟨11 / 10, t, [], rest⟩
        else if opt == ".quit" then ⟨999999, t, [], rest⟩
        else if opt == ".show all" then ⟨maxFloat32, t, [], rest⟩
        else if opt == ".google" then ⟨0, t, [], rest⟩
        else
          let category1 := category ++ [opt]
          let t1 :=
            if 0 < t.Cur then { t with From := joinColon category1 }
            else { t with To := joinColon category1 }
          if hasLabel ks1 opt then
            printAndGetResult ks1 rest opt category1 true t1
          else ⟨0, t1, [], rest⟩

/-- Embedding of `classifyTxn` (main.go): transactions already reviewed by
the AI pass keep their category; otherwise a not-done transaction gets the
best classifier hit on the side selected by the amount sign.  The classifier
itself is external; its ranked output is the parameter `hits`.  The source
indexes `hits[0]` and would panic on an empty hit list; the embedding
defaults to the empty string there. -/
def classifyTxn (hits : String → List String) (t : Txn) : Txn :=
  if !(t.AIReason == "") then t
  else if !t.Done then
    if t.Cur < 0 then { t with To := (hits t.Desc).headD "" }
    else { t with From := (hits t.Desc).headD "" }
  else t

/-- Scope construction of `categorizeTxn` (main.go): default navigation
mappings, then the AI-suggested categories, then the classifier hits, with a
set of already-assigned category names preventing a duplicate auto-assign of
a hit that an AI suggestion already covers. -/
def buildScope (t : Txn) (hits : List String) : Shortcuts :=
  let ks0 := setDefaultMappings ⟨[]⟩
  let p1 := t.AISuggestions.foldl
    (fun (acc : Shortcuts × List String) s =>
      (autoAssign acc.1 s "default", acc.2 ++ [s])) (ks0, [])
  let p2 := hits.foldl
    (fun (acc : Shortcuts × List String) h =>
      if acc.2.contains h then acc
      else (autoAssign acc.1 h "default", acc.2 ++ [h])) p1
  p2.1

/-- Embedding of `categorizeTxn` (main.go): review the transaction in the
per-transaction scope; when the review returns the show-all sentinel, review
again in the global shortcut tree. -/
def categorizeTxn (glob : Shortcuts) (hits : String → List String) (t : Txn)
    (input : List Char) : PRes :=
  let r := printAndGetResult (buildScope t (hits t.Desc)) input "default" [] false t
  if r.res == maxFloat32 then
    let r2 := printAndGetResult glob r.rest "default" [] false r.txn
    ⟨r2.res, r2.txn, r.writes ++ r2.writes, r2.rest⟩
  else r

/-- Similarity test of the closure `applyToSimilarTxns` (main.go): same
letters-only description and same amount sign bit. -/
def similarTo (t dst : Txn) : Bool :=
  lettersOnly t.Desc == lettersOnly dst.Desc && signbit t.Cur == signbit dst.Cur

/-- Category copy of `applyToSimilarTxns` (main.go): the committed side
(selected by the sign of the committed amount) is copied and the target is
marked done. -/
def copyCat (t dst : Txn) : Txn :=
  if 0 < t.Cur then { dst with From := t.From, Done := true }
  else { dst with To := t.To, Done := true }

/-- Forward scan of `applyToSimilarTxns` (main.go) over the transactions
after the committed one: stop at the first transaction with a different
letters-only description or a different sign bit; rewrite each one before
the stop.  Returns the rewritten suffix and the number rewritten. -/
def propagate (t : Txn) : List Txn → List Txn × Nat
  | [] => ([], 0)
  | dst :: rest =>
    if !(lettersOnly t.Desc == lettersOnly dst.Desc) then (dst :: rest, 0)
    else if !(signbit t.Cur == signbit dst.Cur) then (dst :: rest, 0)
    else
      let pr := propagate t rest
      (copyCat t dst :: pr.1, pr.2 + 1)

/-- Embedding of `applyToSimilarTxns(from)` (main.go): rewrite the block of
similar transactions right after `fromIdx` and return the updated list
together with the stop index `upto` (the index of the first dissimilar
transaction, or the length when the scan ran off the end). -/
def applyToSimilarTxns (txns : List Txn) (fromIdx : Nat) : List Txn × Nat :=
  let t := txns.getD fromIdx default
  let pr := propagate t (txns.drop (fromIdx + 1))
  (txns.take (fromIdx + 1) ++ pr.1, fromIdx + 1 + pr.2)

/-- Embedding of the commit branch (`res == 1.0`) of the per-transaction
loop of `showAndCategorizeTxns` (main.go): run the similar-transaction scan;
when nothing matched (`upto == i+1`) just advance the cursor by one with no
store writes; otherwise write every rewritten transaction strictly between
`i` and `upto` to the store and jump the cursor to `upto`.  Returns the
updated batch, the store writes in order, and the new cursor. -/
def commitStep (txns : List Txn) (i : Nat) : List Txn × List Txn × Nat :=
  let ap := applyToSimilarTxns txns i
  if ap.2 == i + 1 then (ap.1, [], i + 1)
  else (ap.1, (ap.1.drop (i + 1)).take (ap.2 - (i + 1)), ap.2)

/-- Embedding of a bolt put (`writeToDB`, db writes in main.go): the store
is an association list sorted by key, and a put overwrites any previous
value under the same key. -/
def stagePut : List (Nat × Txn) → Txn → List (Nat × Txn)
  | [], t => [(t.Key, t)]
  | (k, v) :: rest, t =>
    if t.Key < k then (t.Key, t) :: (k, v) :: rest
    else if t.Key == k then (t.Key, t) :: rest
    else (k, v) :: stagePut rest t

/-- Embedding of `iterateDB` (main.go): a bolt cursor yields the stored
values in key order, which the sorted association list gives directly. -/
def iterateDB (st : List (Nat × Txn)) : List Txn :=
  st.map (fun e => e.2)

/-- Truncation of a Go float64 to int, used by the cursor arithmetic
`i += int(res)` of `showAndCategorizeTxns` (main.go): truncation toward
zero. -/
def ratTrunc (q : ℚ) : Int :=
  q.num.tdiv q.den

/-- Lexicographic strict order on rune sequences, the order computed by
`strings.Compare` (main.go sort of the batch).  Byte-wise comparison of
UTF-8 strings coincides with code-point lexicographic comparison. -/
def charsLt : List Char → List Char → Bool
  | [], [] => false
  | [], _ :: _ => true
  | _ :: _, [] => false
  | a :: as, b :: bs => a < b || (a == b && charsLt as bs)

/-- Comparator of the batch sort in `main` (main.go lines 1895-1903): compare
the letters-only descriptions; when they differ the lexicographically
smaller one comes first, otherwise the transaction whose date is After the
other (the later one) comes first. -/
def goSortLess (a b : Txn) : Bool :=
  let di := lettersOnly a.Desc
  let dj := lettersOnly b.Desc
  if !(di == dj) then charsLt di.data dj.data
  else b.Date < a.Date

/-- Total preorder induced by `goSortLess`: `sort.Slice` guarantees that in
its output no later element is strictly less than an earlier one. -/
def goSortLE (a b : Txn) : Prop :=
  goSortLess b a = false

instance : DecidableRel goSortLE := by
  unfold goSortLE; infer_instance

/-- Embedding of the `sort.Slice` call of `main` (main.go) that orders the
batch before the rule/interactive categorizers run. -/
def sortTxnsForCategorization (txns : List Txn) : List Txn :=
  List.insertionSort goSortLE txns

/-- Observable events of the interactive session: one Browsing prompt, or
the review of the transaction at one cursor position. -/
inductive Event where
  | browse : Event
  | review : Int → Event
deriving DecidableEq, Repr

/-- Control position inside `showAndCategorizeTxns` (main.go): the outer
Browsing pass, or the per-transaction loop at a cursor value. -/
inductive Mode where
  | outer : Mode
  | inner : Int → Mode
deriving DecidableEq, Repr

/-- Embedding of `showAndCategorizeTxns` (main.go), driven by explicit fuel
(the Go loops have no intrinsic bound) and a list of input characters (one
blocking stdin read per decision point; exhausted input, where the source
would block forever, and exhausted fuel both give `none`).  The outer pass
re-classifies the batch, emits the Browsing prompt and reads one character;
the answers n and q end the session, anything else enters the
per-transaction loop at cursor 0.  Each inner iteration reviews the cursor
transaction through `categorizeTxn`, folds its store writes, and either
advances the cursor by the truncated numeric result, or, after a commit
(result exactly 1.0), runs the similar-transaction propagation of
`commitStep`; a non-trivial propagation block writes each rewritten
transaction to the store, performs one extra acknowledging read, and jumps
the cursor past the block.  Leaving the cursor bounds falls back to the
outer Browsing pass.  The result is the event trace, the final store and
the final in-memory batch. -/
def showAndCategorizeTxns (glob : Shortcuts) (hits : String → List String) :
    Nat → Mode → List Txn → List (Nat × Txn) → List Char →
    Option (List Event × List (Nat × Txn) × List Txn)
  | 0, _, _, _, _ => none
  | fuel + 1, Mode.outer, txns, st, input =>
    let txns1 := txns.map (classifyTxn hits)
    match input with
    | [] => none
    | c :: rest =>
      if c == 'n' || c == 'q' then some ([Event.browse], st, txns1)
      else
        (showAndCategorizeTxns glob hits fuel (Mode.inner 0) txns1 st rest).map
          (fun r => (Event.browse :: r.1, r.2))
  | fuel + 1, Mode.inner i, txns, st, input =>
    if 0 ≤ i ∧ i < (txns.length : Int) then
      let t := txns.getD i.toNat default
      let r := categorizeTxn glob hits t input
      let txns1 := txns.set i.toNat r.txn
      let st1 := r.writes.foldl stagePut st
      if r.res == 1 then
        let cs := commitStep txns1 i.toNat
        if cs.2.2 == i.toNat + 1 then
          (showAndCategorizeTxns glob hits fuel (Mode.inner (i + 1)) cs.1 st1
              r.rest).map
            (fun r2 => (Event.review i :: r2.1, r2.2))
        else
          match r.rest with
          | [] => none
          | _ :: rest2 =>
            let st2 := cs.2.1.foldl stagePut st1
            (showAndCategorizeTxns glob hits fuel (Mode.inner (cs.2.2 : Int))
                cs.1 st2 rest2).map
              (fun r2 => (Event.review i :: r2.1, r2.2))
      else
        (showAndCategorizeTxns glob hits fuel (Mode.inner (i + ratTrunc r.res))
            txns1 st1 r.rest).map
          (fun r2 => (Event.review i :: r2.1, r2.2))
    else showAndCategorizeTxns glob hits fuel Mode.outer txns st input

/-- Location of a wall-clock time in the CSV ingestion model: UTC or
anything else. -/
inductive Loc where
  | utc : Loc
  | other : Loc
deriving DecidableEq, Repr

/-- Wall-clock components of a Go `time.Time`, used by the CSV ingestion
section where the midnight normalization manipulates components. -/
structure GoTime where
  year : Int
  month : Nat
  day : Nat
  hour : Nat
  minute : Nat
  second : Nat
  nsec : Nat
  loc : Loc
deriving DecidableEq, Repr

/-- Zero value of `time.Time`: January 1 of year 1, midnight, UTC. -/
def zeroTime : GoTime :=
  ⟨1, 1, 1, 0, 0, 0, 0, Loc.utc⟩

/-- Embedding of `Time.IsZero`. -/
def GoTime.isZero (t : GoTime) : Bool :=
  t == zeroTime

/-- Embedding of `time.Date(y, m, d, 0, 0, 0, 0, time.UTC)`, the midnight
normalization of `parseTransactionsFromCSV` (main.go). -/
def dateOf (t : GoTime) : GoTime :=
  ⟨t.year, t.month, t.day, 0, 0, 0, 0, Loc.utc⟩

/-- One selected CSV column as seen by the parse attempts of
`parseTransactionsFromCSV` (main.go): the result of `time.Parse` with the
configured date format (`parseDate`), the result of `strconv.ParseFloat`
(`parseCurrency`), and the column text with double quotes removed
(`parseDescription`, which always succeeds).  The string-level parsers
themselves are external library calls; their outcomes are the fields. -/
structure Col where
  asDate : Option GoTime
  asCur : Option ℚ
  desc : String
deriving DecidableEq, Repr

/-- Transaction fields filled by one CSV row; the key generation, currency
default and account column of the source loop are independent of the three
parsed fields and are omitted. -/
structure CsvTxn where
  Date : GoTime
  Desc : String
  Cur : ℚ
deriving DecidableEq, Repr

/-- Per-row field extraction of `parseTransactionsFromCSV` (main.go): for
each selected column, a successful date parse sets the date, else a
successful float parse sets the amount, else the column text becomes the
description (later columns overwrite earlier ones). -/
def parseRow (cols : List Col) : CsvTxn :=
  cols.foldl
    (fun t col =>
      match col.asDate with
      | some d => { t with Date := d }
      | none =>
        match col.asCur with
        | some f => { t with Cur := f }
        | none => { t with Desc := col.desc })
    ⟨zeroTime, "", 0⟩

/-- Validation test of `parseTransactionsFromCSV` (main.go): non-empty
description, non-zero date, non-zero amount, checked before the midnight
normalization. -/
def csvRowValid (t : CsvTxn) : Bool :=
  !(t.Desc == "") && !t.Date.isZero && !(t.Cur == 0)

/-- Embedding of the row loop of `parseTransactionsFromCSV` (main.go) over
the data rows (the rows remaining after header skipping).  A row passing the
three-field check contributes its transaction with the date normalized to
midnight UTC; a row failing it hits `log.Fatalln`, modelled as an error that
aborts the whole parse. -/
def parseTransactionsFromCSV : List (List Col) → Except Unit (List CsvTxn)
  | [] => Except.ok []
  | row :: rest =>
    let t := parseRow row
    if csvRowValid t then
      (parseTransactionsFromCSV rest).map
        (fun l => { t with Date := dateOf t.Date } :: l)
    else Except.error ()

/-! Theorems.  Each claim of the specification review gets one theorem,
preceded by helper lemmas where needed. -/

theorem keepRune_iff (c : Char) : keepRune c = true ↔ specSanChar c := by
  simp only [keepRune, specSanChar, Bool.or_eq_true, Bool.and_eq_true,
    decide_eq_true_eq, beq_iff_eq]
  tauto

/-- Claim C9: sanitize is idempotent on every input string; its output
contains only ASCII letters, digits, and the characters star, colon, slash,
dot, dash; every other input character is removed with nothing substituted,
and the retained characters keep their original order (the output rune
sequence is a sublist of the input rune sequence). -/
theorem sanitize_idempotent_and_charset (s : String) :
    sanitize (sanitize s) = sanitize s
      ∧ (∀ c ∈ (sanitize s).data, specSanChar c)
      ∧ (sanitize s).data.Sublist s.data := by
  refine ⟨?_, ?_, ?_⟩
  · show (⟨(s.data.filter keepRune).filter keepRune⟩ : String)
      = ⟨s.data.filter keepRune⟩
    rw [List.filter_filter]
    simp
  · intro c hc
    have hmem := List.of_mem_filter (p := keepRune) hc
    exact (keepRune_iff c).1 hmem
  · exact List.filter_sublist s.data

theorem charsLt_irrefl (x : List Char) : charsLt x x = false := by
  induction x with
  | nil => rfl
  | cons a as ih => simp [charsLt, ih]

theorem charsLt_trans {x y z : List Char} (h1 : charsLt x y = true)
    (h2 : charsLt y z = true) : charsLt x z = true := by
  induction x generalizing y z with
  | nil =>
    cases y with
    | nil => simp [charsLt] at h1
    | cons b bs =>
      cases z with
      | nil => simp [charsLt] at h2
      | cons c cs => rfl
  | cons a as ih =>
    cases y with
    | nil => simp [charsLt] at h1
    | cons b bs =>
      cases z with
      | nil => simp [charsLt] at h2
      | cons c cs =>
        simp only [charsLt, Bool.or_eq_true, Bool.and_eq_true,
          decide_eq_true_eq, beq_iff_eq] at h1 h2 ⊢
        rcases h1 with hab | ⟨hab, h1r⟩
        · rcases h2 with hbc | ⟨hbc, h2r⟩
          · exact Or.inl (lt_trans hab hbc)
          · exact Or.inl (hbc ▸ hab)
        · rcases h2 with hbc | ⟨hbc, h2r⟩
          · exact Or.inl (hab ▸ hbc)
          · exact Or.inr ⟨hab.trans hbc, ih h1r h2r⟩

theorem charsLt_connex {x y : List Char} (h1 : charsLt x y = false)
    (h2 : charsLt y x = false) : x = y := by
  induction x generalizing y with
  | nil =>
    cases y with
    | nil => rfl
    | cons b bs => simp [charsLt] at h1
  | cons a as ih =>
    cases y with
    | nil => simp [charsLt] at h2
    | cons b bs =>
      simp only [charsLt, Bool.or_eq_false_iff, Bool.and_eq_false_iff,
        decide_eq_false_iff_not, beq_eq_false_iff_ne, ne_eq] at h1 h2
      have hab : a = b := le_antisymm (not_lt.1 h2.1) (not_lt.1 h1.1)
      rcases h1.2 with hne | hr1
      · exact absurd hab hne
      · rcases h2.2 with hne | hr2
        · exact absurd hab.symm hne
        · exact by rw [hab, ih hr1 hr2]

theorem charsLt_asymm {x y : List Char} (h : charsLt x y = true) :
    charsLt y x = false := by
  by_contra hc
  have h2 : charsLt y x = true := by
    cases hxy : charsLt y x
    · exact absurd hxy hc
    · rfl
  have := charsLt_trans h h2
  rw [charsLt_irrefl] at this
  exact Bool.false_ne_true this

theorem charsLt_cases (x y : List Char) :
    charsLt x y = true ∨ x = y ∨ charsLt y x = true := by
  cases hxy : charsLt x y
  · cases hyx : charsLt y x
    · exact Or.inr (Or.inl (charsLt_connex hxy hyx))
    · exact Or.inr (Or.inr rfl)
  · exact Or.inl rfl

theorem goSortLess_iff (a b : Txn) :
    goSortLess a b = true
      ↔ (charsLt (lettersOnly a.Desc).data (lettersOnly b.Desc).data = true
          ∨ (lettersOnly a.Desc = lettersOnly b.Desc ∧ b.Date < a.Date)) := by
  by_cases h : lettersOnly a.Desc = lettersOnly b.Desc
  · have : (lettersOnly a.Desc).data = (lettersOnly b.Desc).data := by rw [h]
    simp [goSortLess, h, this ▸ charsLt_irrefl (lettersOnly a.Desc).data]
  · simp [goSortLess, h]

theorem goSortLE_iff (a b : Txn) :
    goSortLE a b
      ↔ (charsLt (lettersOnly a.Desc).data (lettersOnly b.Desc).data = true
          ∨ (lettersOnly a.Desc = lettersOnly b.Desc ∧ b.Date ≤ a.Date)) := by
  unfold goSortLE
  constructor
  · intro h
    have hnot : ¬ goSortLess b a = true := by simp [h]
    rw [goSortLess_iff] at hnot
    push_neg at hnot
    rcases charsLt_cases (lettersOnly a.Desc).data (lettersOnly b.Desc).data
        with hlt | heq | hgt
    · exact Or.inl hlt
    · have heqs : lettersOnly a.Desc = lettersOnly b.Desc := by
        cases ha : lettersOnly a.Desc
        cases hb : lettersOnly b.Desc
        simp only [ha, hb] at heq
        rw [heq]
      refine Or.inr ⟨heqs, ?_⟩
      exact hnot.2 heqs.symm
    · exact absurd hgt hnot.1
  · intro h
    cases hls : goSortLess b a
    · rfl
    · exfalso
      rw [goSortLess_iff] at hls
      rcases h with hlt | ⟨heq, hle⟩
      · rcases hls with hlt2 | ⟨heq2, _⟩
        · have := charsLt_trans hlt hlt2
          rw [charsLt_irrefl] at this
          exact Bool.false_ne_true this
        · rw [heq2] at hlt
          rw [charsLt_irrefl] at hlt
          exact Bool.false_ne_true hlt
      · rcases hls with hlt2 | ⟨_, hdt⟩
        · rw [heq] at hlt2
          rw [charsLt_irrefl] at hlt2
          exact Bool.false_ne_true hlt2
        · exact absurd hdt (not_lt.2 hle)

instance : IsTotal Txn goSortLE := by
  refine ⟨fun a b => ?_⟩
  rw [goSortLE_iff, goSortLE_iff]
  rcases charsLt_cases (lettersOnly a.Desc).data (lettersOnly b.Desc).data
      with hlt | heq | hgt
  · exact Or.inl (Or.inl hlt)
  · have heqs : lettersOnly a.Desc = lettersOnly b.Desc := by
      cases ha : lettersOnly a.Desc
      cases hb : lettersOnly b.Desc
      simp only [ha, hb] at heq
      rw [heq]
    rcases le_total b.Date a.Date with hd | hd
    · exact Or.inl (Or.inr ⟨heqs, hd⟩)
    · exact Or.inr (Or.inr ⟨heqs.symm, hd⟩)
  · exact Or.inr (Or.inl hgt)

instance : IsTrans Txn goSortLE := by
  refine ⟨fun a b c hab hbc => ?_⟩
  rw [goSortLE_iff] at hab hbc ⊢
  rcases hab with hlt1 | ⟨heq1, hd1⟩
  · rcases hbc with hlt2 | ⟨heq2, hd2⟩
    · exact Or.inl (charsLt_trans hlt1 hlt2)
    · exact Or.inl (by rw [← heq2]; exact hlt1)
  · rcases hbc with hlt2 | ⟨heq2, hd2⟩
    · exact Or.inl (by rw [heq1]; exact hlt2)
    · exact Or.inr ⟨heq1.trans heq2, le_trans hd2 hd1⟩

/-- Base transaction for concrete examples; individual examples override the
relevant fields. -/
def baseTxn : Txn :=
  { Date := 0
    Desc := ""
    To := ""
    From := "Assets:Checking"
    Cur := -5
    CurName := "$"
    Key := 1
    Done := false
    AIReason := ""
    AISuggestions := [] }

/-- First transaction of the C6 counterexample: description a1, the earlier
date. -/
def c6t1 : Txn :=
  { baseTxn with Desc := "a1", Date := 100 }

/-- Second transaction of the C6 counterexample: description a2, the later
date. -/
def c6t2 : Txn :=
  { baseTxn with Desc := "a2", Date := 200, Key := 2 }

/-- Claim C6 counterexample: c6t1 has the lexicographically smaller
sanitized description (a1 against a2) and the earlier date, so under the
claim it must come first; the code sorts on the letters-only key (both
collapse to the single letter a) and breaks the tie by the LATER date first,
so the sorted batch is [c6t2, c6t1]. -/
theorem sortForCategorization_counterexample :
    sortTxnsForCategorization [c6t1, c6t2] = [c6t2, c6t1]
      ∧ charsLt (sanitize c6t1.Desc).data (sanitize c6t2.Desc).data = true
      ∧ c6t1.Date < c6t2.Date
      ∧ lettersOnly c6t1.Desc = lettersOnly c6t2.Desc := by
  refine ⟨by decide, by decide, by decide, by decide⟩

/-- Claim C6 as amended: the batch sort before the interactive loop is a
permutation ordered by the pair (letters-only description ascending
lexicographically, then date DESCENDING): for any two transactions in the
sorted batch, the earlier one has a lexicographically smaller letters-only
description, or an equal letters-only description and a later-or-equal
date. -/
theorem sortForCategorization_spec (txns : List Txn) :
    (sortTxnsForCategorization txns).Perm txns
      ∧ List.Pairwise (fun a b =>
          charsLt (lettersOnly a.Desc).data (lettersOnly b.Desc).data = true
            ∨ (lettersOnly a.Desc = lettersOnly b.Desc ∧ b.Date ≤ a.Date))
        (sortTxnsForCategorization txns) := by
  constructor
  · exact List.perm_insertionSort goSortLE txns
  · have hs := List.sorted_insertionSort goSortLE txns
    exact List.Pairwise.imp (fun hab => (goSortLE_iff _ _).1 hab) hs

theorem isDup_eq_any_scanPortion (allowed : Int) (t : Txn) (prev : List Txn) :
    isDup allowed t prev
      = (scanPortion allowed t prev).any (fun pr => dupMatch allowed t pr) := by
  induction prev with
  | nil => rfl
  | cons pr rest ih =>
    by_cases hbreak : t.Date + allowed < pr.Date
    · have hp : (pr.Date ≤ t.Date + allowed) = False := by
        simp [not_le.2 hbreak]
      simp [isDup, hbreak, scanPortion, List.takeWhile, hp]
    · have hp : decide (pr.Date ≤ t.Date + allowed) = true := by
        simp [not_lt.1 hbreak]
      by_cases hm : dupMatch allowed t pr = true
      · simp [isDup, hbreak, hm, scanPortion, List.takeWhile, hp]
      · simp only [Bool.not_eq_true] at hm
        simp [isDup, hbreak, hm, scanPortion, List.takeWhile, hp,
          ih, List.any_cons]

theorem dupMatch_false_of_far (allowed : Int) (t pr : Txn)
    (hfar : t.Date + allowed < pr.Date) : dupMatch allowed t pr = false := by
  have hw : within allowed pr.Date t.Date = false := by
    simp only [within, decide_eq_false_iff_not, not_le]
    calc allowed < pr.Date - t.Date := by omega
    _ ≤ ((pr.Date - t.Date).natAbs : Int) := Int.le_natAbs
  simp [dupMatch, hw]

theorem any_scanPortion_eq_any (allowed : Int) (t : Txn) (prev : List Txn)
    (hs : List.Sorted dateLe prev) :
    (scanPortion allowed t prev).any (fun pr => dupMatch allowed t pr)
      = prev.any (fun pr => dupMatch allowed t pr) := by
  induction prev with
  | nil => rfl
  | cons pr rest ih =>
    by_cases hbreak : t.Date + allowed < pr.Date
    · have hp : (pr.Date ≤ t.Date + allowed) = False := by
        simp [not_le.2 hbreak]
      have hall : rest.any (fun x => dupMatch allowed t x) = false := by
        rw [List.any_eq_false]
        intro x hx
        have hxd : dateLe pr x := (List.sorted_cons.1 hs).1 x hx
        have : t.Date + allowed < x.Date := lt_of_lt_of_le hbreak hxd
        simp [dupMatch_false_of_far allowed t x this]
      simp [scanPortion, List.takeWhile, hp, List.any_cons, hall,
        dupMatch_false_of_far allowed t pr hbreak]
    · have hp : decide (pr.Date ≤ t.Date + allowed) = true := by
        simp [not_lt.1 hbreak]
      have ih2 := ih (List.sorted_cons.1 hs).2
      simp only [scanPortion] at ih2
      simp [scanPortion, List.takeWhile, hp, List.any_cons, ih2]

theorem sorted_findSuffix (hist : List Txn) (bound : Int)
    (hs : List.Sorted dateLe hist) :
    List.Sorted dateLe (findSuffix hist bound) := by
  unfold findSuffix
  cases hidx : hist.findIdx? (fun t => bound < t.Date) with
  | none => exact hs
  | some i => exact hs.sublist (List.drop_sublist i hist)

/-- Claim C1: for a history list and a candidate list both sorted ascending
by date, removeDuplicates keeps exactly the candidates for which no entry of
the scan window (the suffix of the history selected from the earliest
candidate date minus 24h) matches; a match means equal sanitized
description, exactly equal absolute amount, and a date within the tolerance
of the candidate date, inclusive and symmetric in both directions.  The
source scan stops early and at the first match; by sortedness this equals
the existential over the whole window, so a candidate is dropped iff some
window entry matches and every other candidate is kept. -/
theorem removeDuplicates_spec (hist txns : List Txn) (allowed : Int)
    (hh : List.Sorted dateLe hist) (ht : List.Sorted dateLe txns) :
    removeDuplicates hist txns allowed
      = txns.filter (fun t =>
          !((findSuffix hist (headDate txns - 24 * nanosPerHour)).any
            (fun pr => dupMatch allowed t pr)))
    ∧ (∀ t pr : Txn, dupMatch allowed t pr = true
        ↔ (sanitize t.Desc = sanitize pr.Desc ∧ |pr.Cur| = |t.Cur|
            ∧ |pr.Date - t.Date| ≤ allowed)) := by
  constructor
  · cases txns with
    | nil => rfl
    | cons t0 rest =>
      show (let histS := sortByTime hist
            let txnsS := sortByTime (t0 :: rest)
            let bound := headDate txnsS - 24 * nanosPerHour
            let prev := findSuffix histS bound
            txnsS.filter (fun t => !(isDup allowed t prev))) = _
      have e1 : sortByTime hist = hist := hh.insertionSort_eq
      have e2 : sortByTime (t0 :: rest) = t0 :: rest := ht.insertionSort_eq
      simp only [e1, e2]
      apply List.filter_congr
      intro t _
      rw [isDup_eq_any_scanPortion,
        any_scanPortion_eq_any allowed t _
          (sorted_findSuffix hist _ hh)]
  · intro t pr
    simp only [dupMatch, within, Bool.and_eq_true, beq_iff_eq,
      decide_eq_true_eq]
    rw [Int.abs_eq_natAbs]
    tauto

/-- First history entry of the C1 witness, matched by the first
candidate. -/
def c1histA : Txn :=
  { baseTxn with Desc := "STARBUCKS 123", Date := 10 * nanosPerHour, Cur := 5 }

/-- Second, unrelated history entry of the C1 witness. -/
def c1histB : Txn :=
  { baseTxn with Desc := "RENT", Date := 20 * nanosPerHour, Cur := 9, Key := 2 }

/-- History of the C1 witness, sorted by date. -/
def c1hist : List Txn :=
  [c1histA, c1histB]

/-- First candidate of the C1 witness: a duplicate of c1histA
(sanitized-equal description, equal absolute amount, 1h apart). -/
def c1candA : Txn :=
  { baseTxn with Desc := "STARBUCKS #123", Date := 11 * nanosPerHour, Cur := -5, Key := 3 }

/-- Second, fresh candidate of the C1 witness. -/
def c1candB : Txn :=
  { baseTxn with Desc := "GROCERY", Date := 12 * nanosPerHour, Cur := -7, Key := 4 }

/-- Candidates of the C1 witness, sorted by date. -/
def c1txns : List Txn :=
  [c1candA, c1candB]

theorem removeDuplicates_spec_witness :
    List.Sorted dateLe c1hist ∧ List.Sorted dateLe c1txns
      ∧ removeDuplicates c1hist c1txns (24 * nanosPerHour)
        = c1txns.filter (fun t =>
            !((findSuffix c1hist
                (headDate c1txns - 24 * nanosPerHour)).any
              (fun pr => dupMatch (24 * nanosPerHour) t pr))) :=
  ⟨by simp [c1hist, c1histA, c1histB, List.sorted_cons, dateLe, nanosPerHour],
   by simp [c1txns, c1candA, c1candB, List.sorted_cons, dateLe, nanosPerHour],
   (removeDuplicates_spec c1hist c1txns (24 * nanosPerHour)
     (by simp [c1hist, c1histA, c1histB, List.sorted_cons, dateLe, nanosPerHour])
     (by simp [c1txns, c1candA, c1candB, List.sorted_cons, dateLe, nanosPerHour])).1⟩

/-- History entry sitting exactly at the window bound (earliest candidate
date minus 24h) that matches the candidate in description and absolute
amount. -/
def c7e1 : Txn :=
  { baseTxn with Desc := "dup", Date := 0, Cur := 5 }

/-- Later history entry strictly after the bound, unrelated to the
candidate. -/
def c7e2 : Txn :=
  { baseTxn with Desc := "zzz", Date := 1, Cur := 7, Key := 2 }

/-- Candidate of the C7 counterexample, 24h after the matching entry, with
tolerance 24h. -/
def c7cand : Txn :=
  { baseTxn with Desc := "dup", Date := 24 * nanosPerHour, Cur := 5, Key := 3 }

/-- Claim C7 counterexample: the claim says the window starts at the first
history entry with date greater than OR EQUAL to the bound.  Here c7e1 sits
exactly at the bound and matches the candidate within the 24h tolerance, so
under the claim the candidate is scanned against it and dropped; the code
advances to the first entry strictly AFTER the bound (c7e2), never scans
c7e1, and keeps the candidate.  Both input lists are date-sorted. -/
theorem removeDuplicates_window_counterexample :
    removeDuplicates [c7e1, c7e2] [c7cand] (24 * nanosPerHour) = [c7cand]
      ∧ ([c7cand].filter (fun t =>
          !((scanPortion (24 * nanosPerHour) t
              (claimWindow [c7e1, c7e2]
                (headDate [c7cand] - 24 * nanosPerHour))).any
            (fun pr => dupMatch (24 * nanosPerHour) t pr)))) = []
      ∧ List.Sorted dateLe [c7e1, c7e2] ∧ List.Sorted dateLe [c7cand] :=
  ⟨by decide, by decide,
   by simp [c7e1, c7e2, List.sorted_cons, dateLe],
   by simp [List.sorted_cons]⟩

/-- Claim C7 as amended: removeDuplicates computes the window lower bound as
the earliest candidate date minus 24 hours and scans, for every candidate,
the suffix of the date-sorted history beginning at the first entry whose
date is STRICTLY GREATER than that bound (the whole sorted history when no
entry is strictly greater); the per-candidate scan stops as soon as a
history date exceeds the candidate date plus the tolerance. -/
theorem removeDuplicates_window_spec (hist txns : List Txn) (allowed : Int) :
    removeDuplicates hist txns allowed
      = (sortByTime txns).filter (fun t =>
          !((scanPortion allowed t
              (findSuffix (sortByTime hist)
                (headDate (sortByTime txns) - 24 * nanosPerHour))).any
            (fun pr => dupMatch allowed t pr))) := by
  cases txns with
  | nil => rfl
  | cons t0 rest =>
    show (let histS := sortByTime hist
          let txnsS := sortByTime (t0 :: rest)
          let bound := headDate txnsS - 24 * nanosPerHour
          let prev := findSuffix histS bound
          txnsS.filter (fun t => !(isDup allowed t prev))) = _
    apply List.filter_congr
    intro t _
    rw [isDup_eq_any_scanPortion]

theorem propagate_spec (t : Txn) (l : List Txn) :
    propagate t l
      = ((l.takeWhile (similarTo t)).map (copyCat t)
          ++ l.dropWhile (similarTo t),
         (l.takeWhile (similarTo t)).length) := by
  induction l with
  | nil => rfl
  | cons dst rest ih =>
    by_cases h1 : lettersOnly t.Desc == lettersOnly dst.Desc
    · by_cases h2 : signbit t.Cur == signbit dst.Cur
      · have hsim : similarTo t dst = true := by
          simp [similarTo, h1, h2]
        simp [propagate, h1, h2, List.takeWhile, List.dropWhile, hsim, ih]
      · have hsim : similarTo t dst = false := by
          simp only [Bool.not_eq_true] at h2
          simp [similarTo, h2]
        simp only [Bool.not_eq_true] at h2
        simp [propagate, h1, h2, List.takeWhile, List.dropWhile, hsim]
    · have hsim : similarTo t dst = false := by
        simp only [Bool.not_eq_true] at h1
        simp [similarTo, h1]
      simp only [Bool.not_eq_true] at h1
      simp [propagate, h1, List.takeWhile, List.dropWhile, hsim]

/-- Claim C5: after the transaction at cursor i is committed, the commit
branch rewrites exactly the contiguous block of immediately following
transactions sharing its letters-only description and amount sign: each
receives the committed category on the side selected by the amount sign and
is marked done, each rewritten transaction is written to the Stage, and the
cursor jumps to the first position past the block; when no following
transaction matches, there are no writes and the cursor advances by exactly
one. -/
theorem commitStep_spec (txns : List Txn) (i : Nat) (hi : i < txns.length) :
    (commitStep txns i
      = (txns.take (i + 1)
          ++ ((txns.drop (i + 1)).takeWhile
              (similarTo (txns.getD i default))).map
            (copyCat (txns.getD i default))
          ++ (txns.drop (i + 1)).dropWhile (similarTo (txns.getD i default)),
         ((txns.drop (i + 1)).takeWhile
            (similarTo (txns.getD i default))).map
          (copyCat (txns.getD i default)),
         i + 1
           + ((txns.drop (i + 1)).takeWhile
              (similarTo (txns.getD i default))).length))
      ∧ (∀ d ∈ ((txns.drop (i + 1)).takeWhile
            (similarTo (txns.getD i default))).map
          (copyCat (txns.getD i default)),
          d.Done = true
            ∧ (if 0 < (txns.getD i default).Cur
               then d.From = (txns.getD i default).From
               else d.To = (txns.getD i default).To))
      ∧ ((txns.drop (i + 1)).takeWhile (similarTo (txns.getD i default)) = []
          → commitStep txns i = (txns, [], i + 1)) := by
  set t := txns.getD i default with ht
  set block := (txns.drop (i + 1)).takeWhile (similarTo t) with hblock
  have htake : (txns.take (i + 1)).length = i + 1 := by
    simp only [List.length_take]
    omega
  have hap : applyToSimilarTxns txns i
      = (txns.take (i + 1)
          ++ (block.map (copyCat t)
            ++ (txns.drop (i + 1)).dropWhile (similarTo t)),
         i + 1 + block.length) := by
    simp only [applyToSimilarTxns, propagate_spec]
  have hmain : commitStep txns i
      = (txns.take (i + 1)
          ++ block.map (copyCat t)
          ++ (txns.drop (i + 1)).dropWhile (similarTo t),
         block.map (copyCat t),
         i + 1 + block.length) := by
    unfold commitStep
    rw [hap]
    by_cases hz : block.length = 0
    · have hbnil : block = [] := List.length_eq_zero.1 hz
      have : (i + 1 + block.length == i + 1) = true := by
        simp [hz]
      simp [this, hbnil, List.take_append_drop]
    · have hne : (i + 1 + block.length == i + 1) = false := by
        simp only [beq_eq_false_iff_ne, ne_eq]
        omega
      simp only [hne, Bool.false_eq_true, if_false]
      refine Prod.ext (List.append_assoc _ _ _).symm (Prod.ext ?_ ?_)
      · show ((txns.take (i + 1)
            ++ (block.map (copyCat t)
              ++ (txns.drop (i + 1)).dropWhile (similarTo t))).drop
              (i + 1)).take (i + 1 + block.length - (i + 1))
          = block.map (copyCat t)
        rw [List.drop_left' htake]
        have hk : i + 1 + block.length - (i + 1)
            = (block.map (copyCat t)).length := by
          simp
        rw [hk, List.take_left]
      · rfl
  refine ⟨by rw [hmain], ?_, ?_⟩
  · intro d hd
    rcases List.mem_map.1 hd with ⟨x, _, hx⟩
    subst hx
    unfold copyCat
    by_cases hc : 0 < t.Cur
    · simp [hc]
    · simp [hc]
  · intro hbnil
    rw [hmain, hbnil]
    have hdw : (txns.drop (i + 1)).dropWhile (similarTo t) = txns.drop (i + 1) := by
      have hx := List.takeWhile_append_dropWhile (similarTo t) (txns.drop (i + 1))
      rw [← hblock, hbnil] at hx
      simpa using hx
    simp [hdw, List.take_append_drop]

/-- Committed head of the C5 witness block: description with letters-only
key x, negative amount, category already committed on the To side. -/
def c5a : Txn :=
  { baseTxn with Desc := "x 1", To := "Expenses:Food", Done := true }

/-- Second transaction of the C5 witness block, same letters-only key and
sign. -/
def c5b : Txn :=
  { baseTxn with Desc := "x-1", Key := 2 }

/-- Third transaction of the C5 witness block, same letters-only key and
sign. -/
def c5c : Txn :=
  { baseTxn with Desc := "x.1", Key := 3 }

theorem commitStep_spec_witness :
    0 < [c5a, c5b, c5c].length
      ∧ (commitStep [c5a, c5b, c5c] 0).2.2 = 3
      ∧ (commitStep [c5a, c5b, c5c] 0).1.all (fun d => d.Done)
      ∧ (commitStep [c5a, c5b, c5c] 0).2.1.all
          (fun d => d.To == "Expenses:Food") := by
  have h := (commitStep_spec [c5a, c5b, c5c] 0 (by decide)).1
  refine ⟨by decide, ?_, ?_, ?_⟩
  · rw [h]; decide
  · rw [h]; decide
  · rw [h]; decide

/-- Claim C4: in the per-transaction review step, Enter persists the
transaction to the Stage and marks it done exactly when both account sides
are non-empty, returning cursor advance +1, or 0 when the review was reached
through a deeper drill-down (repeat flag set); the persisted value is the
transaction as it stood before the done mark.  Enter with an empty side
(newline being unmapped in the scope, as the assign operations only bind
printable characters) and any character unmapped in the current scope cause
no Stage write, leave every transaction field unchanged, and return cursor
advance 0 (silent re-prompt). -/
theorem printAndGetResult_review_step (ks : Shortcuts) (rest : List Char)
    (label : String) (category : List String) (rep : Bool) (t : Txn)
    (ch : Char) :
    (t.To ≠ "" → t.From ≠ "" →
      printAndGetResult ks ('\n' :: rest) label category rep t
        = ⟨if rep then 0 else 1, { t with Done := true }, [t], rest⟩)
    ∧ ((ch = '\n' → t.To = "" ∨ t.From = "") →
        mapsTo (scopeAt ks category label) ch label = none →
        printAndGetResult ks (ch :: rest) label category rep t
          = ⟨0, t, [], rest⟩) := by
  constructor
  · intro h1 h2
    have e1 : (t.To == "") = false := by simp [h1]
    have e2 : (t.From == "") = false := by simp [h2]
    simp [printAndGetResult, e1, e2]
  · intro hempty hnone
    by_cases hch : ch = '\n'
    · rcases hempty hch with he | he
      · subst hch
        have e1 : (t.To == "") = true := by simp [he]
        simp [printAndGetResult, e1, hnone]
      · subst hch
        have e2 : (t.From == "") = true := by simp [he]
        simp [printAndGetResult, e2, hnone]
    · have e0 : (ch == '\n') = false := by simp [hch]
      simp [printAndGetResult, e0, hnone]

/-- Transaction with both sides set, for the C4 witness. -/
def c4t : Txn :=
  { baseTxn with To := "Expenses:Food" }

theorem printAndGetResult_review_step_witness :
    c4t.To ≠ "" ∧ c4t.From ≠ ""
      ∧ printAndGetResult ⟨[]⟩ ['\n'] "default" [] false c4t
        = ⟨1, { c4t with Done := true }, [c4t], []⟩
      ∧ mapsTo (scopeAt ⟨[]⟩ [] "default") 'z' "default" = none
      ∧ printAndGetResult ⟨[]⟩ ['z'] "default" [] false baseTxn
        = ⟨0, baseTxn, [], []⟩ :=
  ⟨by decide, by decide,
   (printAndGetResult_review_step ⟨[]⟩ [] "default" [] false c4t '\n').1
     (by decide) (by decide),
   by decide,
   (printAndGetResult_review_step ⟨[]⟩ [] "default" [] false baseTxn 'z').2
     (by decide) (by decide)⟩

/-- Date column of the C10 counterexample: the configured date format may
carry clock components (the -date flag is free-form), and
01/01/0001 05:00 parses to January 1 of year 1 at 5am UTC, which is not the
zero time. -/
def c10dateCol : Col :=
  { asDate := some ⟨1, 1, 1, 5, 0, 0, 0, Loc.utc⟩, asCur := none, desc := "" }

/-- Amount column of the C10 counterexample. -/
def c10curCol : Col :=
  { asDate := none, asCur := some 5, desc := "" }

/-- Description column of the C10 counterexample. -/
def c10descCol : Col :=
  { asDate := none, asCur := none, desc := "STARBUCKS" }

/-- Claim C10 counterexample: the three-field check runs BEFORE the midnight
normalization.  This row parses a date of January 1, year 1, 05:00 UTC,
which passes the non-zero-date check; the subsequent normalization zeroes
the clock and produces exactly the zero time, so parseTransactionsFromCSV
returns a transaction whose date IS the zero value, against the claim that
every returned transaction has a non-zero date. -/
theorem parseTransactionsFromCSV_counterexample :
    csvRowValid (parseRow [c10dateCol, c10curCol, c10descCol]) = true
      ∧ parseTransactionsFromCSV [[c10dateCol, c10curCol, c10descCol]]
        = Except.ok [⟨zeroTime, "STARBUCKS", 5⟩]
      ∧ GoTime.isZero zeroTime = true :=
  ⟨by decide, rfl, by decide⟩

/-- Claim C10 as amended: every transaction returned by
parseTransactionsFromCSV has a non-empty description, a non-zero amount, and
a date normalized to midnight UTC; each contributing row passed the
three-field check (non-empty description, non-zero amount, date non-zero
BEFORE normalization) and any row failing the check aborts the whole parse
fatally, so no partial transaction is produced.  The returned date itself is
non-zero except in the degenerate case of a parsed date on January 1 of year
1 whose only non-zero components were clock components. -/
theorem parseTransactionsFromCSV_spec (rows : List (List Col))
    (res : List CsvTxn)
    (hok : parseTransactionsFromCSV rows = Except.ok res) :
    res = rows.map
        (fun row => { parseRow row with Date := dateOf (parseRow row).Date })
      ∧ (∀ row ∈ rows, csvRowValid (parseRow row) = true)
      ∧ ∀ t ∈ res, t.Desc ≠ "" ∧ t.Cur ≠ 0
          ∧ t.Date.hour = 0 ∧ t.Date.minute = 0 ∧ t.Date.second = 0
          ∧ t.Date.nsec = 0 ∧ t.Date.loc = Loc.utc := by
  induction rows generalizing res with
  | nil =>
    simp only [parseTransactionsFromCSV, Except.ok.injEq] at hok
    subst hok
    simp
  | cons row rest ih =>
    by_cases hv : csvRowValid (parseRow row) = true
    · simp only [parseTransactionsFromCSV, hv, if_true] at hok
      cases hrest : parseTransactionsFromCSV rest with
      | error e => rw [hrest] at hok; simp [Except.map] at hok
      | ok l =>
        rw [hrest] at hok
        simp only [Except.map, Except.ok.injEq] at hok
        subst hok
        obtain ⟨ih1, ih2, ih3⟩ := ih l hrest
        refine ⟨?_, ?_, ?_⟩
        · simp [ih1]
        · intro r hr
          rcases List.mem_cons.1 hr with hr | hr
          · exact hr ▸ hv
          · exact ih2 r hr
        · intro t ht
          rcases List.mem_cons.1 ht with ht | ht
          · subst ht
            simp only [csvRowValid, Bool.and_eq_true, Bool.not_eq_true',
              beq_eq_false_iff_ne, ne_eq] at hv
            exact ⟨hv.1.1, hv.2, rfl, rfl, rfl, rfl, rfl⟩
          · exact ih3 t ht
    · simp only [Bool.not_eq_true] at hv
      simp [parseTransactionsFromCSV, hv] at hok

/-- Valid data row for the C10 witness: an ordinary date, amount and
description. -/
def c10okRow : List Col :=
  [{ asDate := some ⟨2024, 5, 3, 0, 0, 0, 0, Loc.utc⟩, asCur := none, desc := "" },
   { asDate := none, asCur := some (-7), desc := "" },
   { asDate := none, asCur := none, desc := "GROCERY" }]

theorem parseTransactionsFromCSV_spec_witness :
    parseTransactionsFromCSV [c10okRow]
      = Except.ok [⟨⟨2024, 5, 3, 0, 0, 0, 0, Loc.utc⟩, "GROCERY", -7⟩]
      ∧ ∀ t ∈ [(⟨⟨2024, 5, 3, 0, 0, 0, 0, Loc.utc⟩, "GROCERY", -7⟩ : CsvTxn)],
          t.Desc ≠ "" ∧ t.Cur ≠ 0
            ∧ t.Date.hour = 0 ∧ t.Date.minute = 0 ∧ t.Date.second = 0
            ∧ t.Date.nsec = 0 ∧ t.Date.loc = Loc.utc :=
  ⟨rfl,
   (parseTransactionsFromCSV_spec [c10okRow] _ rfl).2.2⟩

theorem mapsTo_append (l l2 : List (String × Char × String)) (c : Char)
    (p x : String) (h : mapsTo ⟨l⟩ c p = some x) :
    mapsTo ⟨l ++ l2⟩ c p = some x := by
  unfold mapsTo at h ⊢
  cases hf : l.find? (fun e => e.1 == p && e.2.1 == c) with
  | none => rw [hf] at h; simp at h
  | some e =>
    rw [hf] at h
    rw [List.find?_append, hf]
    exact h

theorem autoAssign_preserves (ks : Shortcuts) (lab par : String) (c : Char)
    (p x : String) (h : mapsTo ks c p = some x) :
    mapsTo (autoAssign ks lab par) c p = some x := by
  unfold autoAssign
  by_cases ha : assignedUnder ks lab par
  · simpa [ha]
  · simp only [ha, if_false, Bool.false_eq_true]
    cases hfind : (lab.data ++ lab.data.map Char.toUpper ++ digitChars).find?
        (fun ch => !(charUsed ks ch par)) with
    | none => exact h
    | some ch => exact mapsTo_append ks.entries _ c p x h

theorem bestEffortAssign_preserves (ks : Shortcuts) (c0 : Char)
    (lab par : String) (c : Char) (p x : String)
    (h : mapsTo ks c p = some x) :
    mapsTo (bestEffortAssign ks c0 lab par) c p = some x := by
  unfold bestEffortAssign
  by_cases hu : charUsed ks c0 par
  · simpa [hu]
  · simp only [hu, if_false, Bool.false_eq_true]
    exact mapsTo_append ks.entries _ c p x h

theorem foldl_autoAssign_preserves (l : List String)
    (acc : Shortcuts × List String) (c : Char) (p x : String)
    (h : mapsTo acc.1 c p = some x) :
    mapsTo (l.foldl (fun acc s =>
        (autoAssign acc.1 s "default", acc.2 ++ [s])) acc).1 c p = some x := by
  induction l generalizing acc with
  | nil => exact h
  | cons s rest ih =>
    exact ih _ (autoAssign_preserves acc.1 s "default" c p x h)

theorem foldl_hits_preserves (l : List String)
    (acc : Shortcuts × List String) (c : Char) (p x : String)
    (h : mapsTo acc.1 c p = some x) :
    mapsTo (l.foldl (fun acc h2 =>
        if acc.2.contains h2 then acc
        else (autoAssign acc.1 h2 "default", acc.2 ++ [h2])) acc).1 c p
      = some x := by
  induction l generalizing acc with
  | nil => exact h
  | cons s rest ih =>
    rw [List.foldl_cons]
    split
    · exact ih acc h
    · exact ih _ (autoAssign_preserves acc.1 s "default" c p x h)

theorem buildScope_mapsTo_quit (t : Txn) (hits : List String) :
    mapsTo (buildScope t hits) 'q' "default" = some ".quit" := by
  unfold buildScope
  apply foldl_hits_preserves
  apply foldl_autoAssign_preserves
  decide

theorem set_getD_eq (l : List Txn) (i : Nat) (h : i < l.length) :
    l.set i (l.getD i default) = l := by
  induction l generalizing i with
  | nil => simp at h
  | cons a as ih =>
    cases i with
    | zero => simp [List.getD]
    | succ n =>
      simp only [List.getD_cons_succ, List.set_cons_succ, List.cons.injEq,
        true_and]
      exact ih n (by simpa using h)

theorem categorizeTxn_quit (glob : Shortcuts) (hits : String → List String)
    (t : Txn) (rest : List Char) :
    categorizeTxn glob hits t ('q' :: rest) = ⟨999999, t, [], rest⟩ := by
  have hq := buildScope_mapsTo_quit t (hits t.Desc)
  have hpr : printAndGetResult (buildScope t (hits t.Desc)) ('q' :: rest)
      "default" [] false t = ⟨999999, t, [], rest⟩ := by
    have hsc : scopeAt (buildScope t (hits t.Desc)) [] "default"
        = buildScope t (hits t.Desc) := by
      simp [scopeAt]
    simp [printAndGetResult, hsc, hq]
  have hne : ((999999 : ℚ) == maxFloat32) = false := by decide
  simp [categorizeTxn, hpr, hne]

/-- Claim C8 as amended: selecting .quit during per-transaction review does
NOT terminate the session; it jumps the cursor out of the per-transaction
loop (by the sentinel 999999, assuming the batch is no longer than that) and
control returns to the outer Browsing pass: the session continues with the
Browsing prompt on the unchanged batch and Stage, and only declining review
there (or exhausting input) ends the session. -/
theorem quit_returns_to_browsing (glob : Shortcuts)
    (hits : String → List String) (fuel : Nat) (txns : List Txn)
    (st : List (Nat × Txn)) (i : Int) (rest : List Char)
    (h0 : 0 ≤ i) (hlen : i < (txns.length : Int))
    (hcap : txns.length ≤ 999999) :
    showAndCategorizeTxns glob hits (fuel + 2) (Mode.inner i) txns st
        ('q' :: rest)
      = (showAndCategorizeTxns glob hits fuel Mode.outer txns st rest).map
          (fun r => (Event.review i :: r.1, r.2)) := by
  have hcond : 0 ≤ i ∧ i < (txns.length : Int) := ⟨h0, hlen⟩
  have hq := categorizeTxn_quit glob hits (txns.getD i.toNat default) rest
  have hres : ((999999 : ℚ) == 1) = false := by decide
  have htr : ratTrunc 999999 = 999999 := by decide
  have hset := set_getD_eq txns i.toNat (by omega)
  have step1 : showAndCategorizeTxns glob hits (fuel + 2) (Mode.inner i) txns
      st ('q' :: rest)
      = (showAndCategorizeTxns glob hits (fuel + 1)
          (Mode.inner (i + 999999)) txns st rest).map
        (fun r => (Event.review i :: r.1, r.2)) := by
    rw [showAndCategorizeTxns]
    rw [if_pos hcond]
    simp only [hq, hres, Bool.false_eq_true, if_false, htr,
      List.foldl_nil, hset]
  have hout : ¬ (0 ≤ i + 999999 ∧ i + 999999 < (txns.length : Int)) := by
    intro hcl
    omega
  have step2 : showAndCategorizeTxns glob hits (fuel + 1)
      (Mode.inner (i + 999999)) txns st rest
      = showAndCategorizeTxns glob hits fuel Mode.outer txns st rest := by
    rw [showAndCategorizeTxns]
    rw [if_neg hout]
  rw [step1, step2]

theorem quit_returns_to_browsing_witness :
    (0 : Int) ≤ 0 ∧ (0 : Int) < ([baseTxn].length : Int)
      ∧ [baseTxn].length ≤ 999999
      ∧ showAndCategorizeTxns ⟨[]⟩ (fun _ => []) 3 (Mode.inner 0) [baseTxn]
          [] ['q', 'n']
        = (showAndCategorizeTxns ⟨[]⟩ (fun _ => []) 1 Mode.outer [baseTxn]
            [] ['n']).map
          (fun r => (Event.review 0 :: r.1, r.2)) :=
  ⟨by decide, by decide, by decide,
   quit_returns_to_browsing ⟨[]⟩ (fun _ => []) 1 [baseTxn] [] 0 ['n']
     (by decide) (by decide) (by decide)⟩

/-- Hit function used by the concrete session runs: the classifier always
proposes one expense category. -/
def demoHits : String → List String :=
  fun _ => ["Expenses:Food"]

/-- Single-transaction batch for the C8 counterexample. -/
def c8txn : Txn :=
  { baseTxn with Desc := "aa" }

/-- Complete session run for the C8 counterexample: enter review at the
Browsing prompt, press q (mapped to .quit) at the first transaction review,
then decline the next Browsing prompt. -/
def c8run : Option (List Event × List (Nat × Txn) × List Txn) :=
  showAndCategorizeTxns ⟨[]⟩ demoHits 10 Mode.outer [c8txn] []
    ['y', 'q', 'n']

/-- Claim C8 counterexample: after .quit is selected during the review of
transaction 0, the session emits ANOTHER Browsing prompt (the trace ends
browse, review 0, browse) instead of terminating immediately; the quit
character is really mapped to .quit (the review returns the quit sentinel
999999), and the session only ends because the second Browsing prompt is
answered n. -/
theorem quit_counterexample :
    (c8run.map (fun r => r.1))
        = some [Event.browse, Event.review 0, Event.browse]
      ∧ (categorizeTxn ⟨[]⟩ demoHits (classifyTxn demoHits c8txn)
          ['q', 'n']).res = 999999 :=
  ⟨by decide, by decide⟩

/-- Batch of five non-duplicate transactions for the C3 run: distinct
letters-only descriptions (so no propagation fires), negative amounts, the
account side pre-populated, the classified side initially empty. -/
def c3batch : List Txn :=
  [{ baseTxn with Desc := "aa", Key := 1 },
   { baseTxn with Desc := "bb", Key := 2 },
   { baseTxn with Desc := "cc", Key := 3 },
   { baseTxn with Desc := "dd", Key := 4 },
   { baseTxn with Desc := "ee", Key := 5 }]

/-- Complete interactive session for claim C3: accept review at the
Browsing prompt, commit each of the five transactions with Enter (both
sides are set: the account side from upstream, the other side by
classifyTxn during the Browsing pass), then decline the final Browsing
prompt. -/
def c3run : Option (List Event × List (Nat × Txn) × List Txn) :=
  showAndCategorizeTxns ⟨[]⟩ demoHits 12 Mode.outer c3batch []
    ['y', '\n', '\n', '\n', '\n', '\n', 'q']

/-- Claim C3 counterexample: the batch of five is fully categorized
interactively, every transaction being committed via Enter with both sides
set (the trace reviews cursor 0 through 4 and the final in-memory batch is
all done); yet every one of the five Stage records returned by scanAll
(iterateDB) has done equal to FALSE, because the commit branch writes the
transaction to the Stage before setting Done in memory. -/
theorem showAndCategorize_stage_counterexample :
    (c3run.map (fun r => r.1))
        = some [Event.browse, Event.review 0, Event.review 1, Event.review 2,
            Event.review 3, Event.review 4, Event.browse]
      ∧ (c3run.map (fun r => r.2.2.all (fun t => t.Done))) = some true
      ∧ (c3run.map (fun r => (iterateDB r.2.1).length)) = some 5
      ∧ (c3run.map (fun r => (iterateDB r.2.1).all (fun t => t.Done == false)))
        = some true :=
  ⟨by decide, by decide, by decide, by decide⟩

/-- Claim C3 as amended: after the batch of five non-duplicate transactions
is fully categorized interactively via Enter, every transaction of the
batch appears in the Stage as returned by scanAll (iterateDB) with both
toAccount and fromAccount non-empty, under its own key; but the stored done
flag is false for these directly-committed transactions (the in-memory copy
is marked done only after the Stage write), while the in-memory batch ends
all done. -/
theorem showAndCategorize_stage_spec :
    (c3run.map (fun r => (iterateDB r.2.1).all
        (fun t => !(t.To == "") && !(t.From == "") && (t.Done == false))))
        = some true
      ∧ (c3run.map (fun r => (iterateDB r.2.1).map (fun t => t.Key)))
        = some [1, 2, 3, 4, 5]
      ∧ (c3run.map (fun r => r.2.2.all
          (fun t => t.Done && !(t.To == "") && !(t.From == ""))))
        = some true :=
  ⟨by decide, by decide, by decide⟩

theorem mkPairs_length (l : List ℚ) (i : Nat) :
    (mkPairs l i).length = l.length := by
  induction l generalizing i with
  | nil => rfl
  | cons s rest ih => simp [mkPairs, ih]

theorem mkPairs_map_fst (l : List ℚ) (i : Nat) :
    (mkPairs l i).map Prod.fst = l := by
  induction l generalizing i with
  | nil => rfl
  | cons s rest ih => simp [mkPairs, ih]

theorem mkPairs_mem (l : List ℚ) (i : Nat) (p : ℚ × Nat)
    (hp : p ∈ mkPairs l i) :
    ∃ k, k < l.length ∧ p.2 = i + k ∧ l.getD k 0 = p.1 := by
  induction l generalizing i with
  | nil => simp [mkPairs] at hp
  | cons s rest ih =>
    rcases List.mem_cons.1 hp with hp | hp
    · exact ⟨0, by simp, by simp [hp], by simp [hp]⟩
    · rcases ih (i + 1) hp with ⟨k, hk, h2, h3⟩
      exact ⟨k + 1, by simpa using hk, by omega, by simpa using h3⟩

theorem sampleVar_nonneg (scores : List ℚ) (h1 : 1 ≤ scores.length) :
    0 ≤ sampleVar scores := by
  unfold sampleVar
  apply div_nonneg
  · apply List.sum_nonneg
    intro x hx
    rcases List.mem_map.1 hx with ⟨s, _, hs⟩
    exact hs ▸ sq_nonneg _
  · have : (1 : ℚ) ≤ (scores.length : ℚ) := by exact_mod_cast h1
    linarith

theorem walkHits_prefix (svar : ℚ) (l : List (ℚ × Nat)) (last : ℚ) :
    (walkHits svar l last) <+: l := by
  induction l generalizing last with
  | nil => exact List.prefix_refl _
  | cons p rest ih =>
    unfold walkHits
    by_cases hbr : svar < (p.1 - last) ^ 2
    · simp only [hbr, if_true]
      exact List.nil_prefix
    · simp only [hbr, if_false]
      rcases ih p.1 with ⟨tail2, ht⟩
      exact ⟨tail2, by rw [List.cons_append, ht]⟩

theorem walkHits_head_rel (svar : ℚ) (l : List (ℚ × Nat)) (last : ℚ)
    (x : ℚ × Nat) (tl : List (ℚ × Nat))
    (h : walkHits svar l last = x :: tl) : (x.1 - last) ^ 2 ≤ svar := by
  cases l with
  | nil => simp [walkHits] at h
  | cons p rest =>
    unfold walkHits at h
    by_cases hbr : svar < (p.1 - last) ^ 2
    · simp [hbr] at h
    · simp only [hbr, if_false] at h
      cases h
      exact not_lt.1 hbr

theorem walkHits_chain (svar : ℚ) (l : List (ℚ × Nat)) (last : ℚ) :
    List.Chain' (fun a b => (b.1 - a.1) ^ 2 ≤ svar)
      (walkHits svar l last) := by
  induction l generalizing last with
  | nil => simp [walkHits]
  | cons p rest ih =>
    unfold walkHits
    by_cases hbr : svar < (p.1 - last) ^ 2
    · simp [hbr]
    · simp only [hbr, if_false]
      refine List.Chain'.cons' (ih p.1) ?_
      intro y hy
      cases hw : walkHits svar rest p.1 with
      | nil => rw [hw] at hy; simp at hy
      | cons x tl =>
        rw [hw] at hy
        simp only [List.head?_cons, Option.mem_def, Option.some.injEq] at hy
        subst hy
        exact walkHits_head_rel svar rest p.1 x tl hw

theorem walkHits_full (svar : ℚ) (l : List (ℚ × Nat)) (last : ℚ)
    (hchain : List.Chain' (fun a b => (b.1 - a.1) ^ 2 ≤ svar) l)
    (hfirst : ∀ x ∈ l.head?, (x.1 - last) ^ 2 ≤ svar) :
    walkHits svar l last = l := by
  induction l generalizing last with
  | nil => rfl
  | cons p rest ih =>
    have hp := hfirst p (by simp)
    unfold walkHits
    rw [if_neg (not_lt.2 hp)]
    congr 1
    refine ih p.1 hchain.tail ?_
    intro x hx
    cases rest with
    | nil => simp at hx
    | cons q tl =>
      simp only [List.head?_cons, Option.mem_def, Option.some.injEq] at hx
      subst hx
      exact (List.chain'_cons.1 hchain).1

/-- Claim C2: for every score vector with at least two classes (one score
per class), topHits returns between 1 and min(5, number of classes) classes;
the kept pairs are in descending score order and start at a class of
globally maximal score; each kept score differs from the previously kept
score by at most the sample standard deviation (stated in squared form:
squared gap at most the sample variance with divisor n-1); and when every
consecutive gap of the descending score sequence is within one standard
deviation, the result has exactly min(5, number of classes) entries. -/
theorem topHits_spec (classes : List String) (scores : List ℚ)
    (h2 : 2 ≤ scores.length) (hlen : classes.length = scores.length) :
    (1 ≤ (topHits classes scores).length
      ∧ (topHits classes scores).length ≤ min 5 classes.length)
    ∧ (∃ j, j < scores.length
        ∧ (topHits classes scores).head? = some (classes.getD j "")
        ∧ ∀ s ∈ scores, s ≤ scores.getD j 0)
    ∧ List.Pairwise (fun a b => b.1 ≤ a.1) (topHitPairs scores)
    ∧ List.Chain' (fun a b => (b.1 - a.1) ^ 2 ≤ sampleVar scores)
        (topHitPairs scores)
    ∧ (List.Chain' (fun a b => (b.1 - a.1) ^ 2 ≤ sampleVar scores)
          (sortedScorePairs scores)
        → (topHits classes scores).length = min 5 classes.length) := by
  have hsv : 0 ≤ sampleVar scores := sampleVar_nonneg scores (by omega)
  have hperm : (sortedScorePairs scores).Perm (mkPairs scores 0) :=
    List.perm_insertionSort scoreGe _
  have hlens : (sortedScorePairs scores).length = scores.length := by
    rw [hperm.length_eq, mkPairs_length]
  have hpw : List.Pairwise scoreGe (sortedScorePairs scores) :=
    List.sorted_insertionSort scoreGe _
  cases hs : sortedScorePairs scores with
  | nil =>
    exfalso
    rw [hs] at hlens
    simp at hlens
    omega
  | cons p0 tail =>
    rw [hs] at hlens hpw
    have hmin1 : 1 ≤ min scores.length 5 := by omega
    have htakec : (p0 :: tail).take (min scores.length 5)
        = p0 :: tail.take (min scores.length 5 - 1) := by
      obtain ⟨m, hm⟩ : ∃ m, min scores.length 5 = m + 1 :=
        ⟨min scores.length 5 - 1, by omega⟩
      rw [hm]
      simp
    have hzero : (p0.1 - p0.1) ^ 2 = 0 := by
      rw [sub_self]
      exact zero_pow (by omega)
    have htop : topHitPairs scores
        = p0 :: walkHits (sampleVar scores)
            (tail.take (min scores.length 5 - 1)) p0.1 := by
      unfold topHitPairs
      rw [hs]
      show walkHits (sampleVar scores)
          ((p0 :: tail).take (min scores.length 5)) p0.1 = _
      rw [htakec]
      show (if sampleVar scores < (p0.1 - p0.1) ^ 2 then []
        else p0 :: walkHits (sampleVar scores)
          (tail.take (min scores.length 5 - 1)) p0.1) = _
      rw [if_neg (by rw [hzero]; exact not_lt.2 hsv)]
    have hpre : (topHitPairs scores).Sublist (p0 :: tail) := by
      have h1 : (topHitPairs scores)
          <+: (p0 :: tail).take (min scores.length 5) := by
        rw [htakec, htop]
        rcases walkHits_prefix (sampleVar scores)
            (tail.take (min scores.length 5 - 1)) p0.1 with ⟨tl, htl⟩
        exact ⟨tl, by rw [List.cons_append, htl]⟩
      exact h1.sublist.trans (List.take_sublist _ _)
    have hlentop : (topHits classes scores).length
        = (topHitPairs scores).length := by
      unfold topHits
      rw [List.length_map]
    refine ⟨⟨?_, ?_⟩, ?_, ?_, ?_, ?_⟩
    · rw [hlentop, htop]
      simp
    · rw [hlentop]
      have h1 : (topHitPairs scores).length
          ≤ ((p0 :: tail).take (min scores.length 5)).length := by
        have h3 : (topHitPairs scores)
            <+: (p0 :: tail).take (min scores.length 5) := by
          rw [htakec, htop]
          rcases walkHits_prefix (sampleVar scores)
              (tail.take (min scores.length 5 - 1)) p0.1 with ⟨tl, htl⟩
          exact ⟨tl, by rw [List.cons_append, htl]⟩
        exact h3.sublist.length_le
      rw [List.length_take, hlens] at h1
      omega
    · have hp0mem : p0 ∈ mkPairs scores 0 := by
        apply hperm.subset
        rw [hs]
        exact List.mem_cons_self p0 tail
      rcases mkPairs_mem scores 0 p0 hp0mem with ⟨k, hk, hk2, hk3⟩
      refine ⟨p0.2, by omega, ?_, ?_⟩
      · unfold topHits
        rw [htop]
        simp
      · intro s hsmem
        have hs2 : s ∈ (mkPairs scores 0).map Prod.fst := by
          rw [mkPairs_map_fst]
          exact hsmem
        rcases List.mem_map.1 hs2 with ⟨q, hq, hq1⟩
        have hq3 : q ∈ p0 :: tail := by
          rw [← hs]
          exact hperm.mem_iff.2 hq
        have hle : q.1 ≤ p0.1 := by
          rcases List.mem_cons.1 hq3 with hq3 | hq3
          · rw [hq3]
          · exact (List.pairwise_cons.1 hpw).1 q hq3
        have hgd : scores.getD p0.2 0 = p0.1 := by
          rw [hk2]
          simpa using hk3
        rw [hgd, ← hq1]
        exact hle
    · exact List.Pairwise.sublist hpre hpw
    · rw [htop]
      refine List.Chain'.cons' (walkHits_chain _ _ _) ?_
      intro y hy
      cases hw : walkHits (sampleVar scores)
          (tail.take (min scores.length 5 - 1)) p0.1 with
      | nil => rw [hw] at hy; simp at hy
      | cons x tl =>
        rw [hw] at hy
        simp only [List.head?_cons, Option.mem_def, Option.some.injEq] at hy
        subst hy
        exact walkHits_head_rel _ _ _ x tl hw
    · intro hflat
      have hchain : List.Chain'
          (fun a b => (b.1 - a.1) ^ 2 ≤ sampleVar scores)
          ((p0 :: tail).take (min scores.length 5)) :=
        hflat.prefix (List.take_prefix _ _)
      have hfull : walkHits (sampleVar scores)
          ((p0 :: tail).take (min scores.length 5)) p0.1
          = (p0 :: tail).take (min scores.length 5) := by
        apply walkHits_full _ _ _ hchain
        intro x hx
        rw [htakec] at hx
        simp only [List.head?_cons, Option.mem_def, Option.some.injEq] at hx
        subst hx
        rw [hzero]
        exact hsv
      have htop2 : topHitPairs scores
          = (p0 :: tail).take (min scores.length 5) := by
        unfold topHitPairs
        rw [hs]
        show walkHits (sampleVar scores)
            ((p0 :: tail).take (min scores.length 5)) p0.1 = _
        exact hfull
      rw [hlentop, htop2, List.length_take, hlens]
      omega

set_option maxRecDepth 4000 in
unseal Rat.add Rat.mul Rat.sub Rat.inv in
theorem maxFloat32_eq : maxFloat32 = 2 ^ 128 - 2 ^ 104 := by decide

unseal Rat.add Rat.mul Rat.sub Rat.inv in
theorem topHits_spec_witness :
    2 ≤ ([1, 5, 3] : List ℚ).length
      ∧ (["A", "B", "C"] : List String).length = ([1, 5, 3] : List ℚ).length
      ∧ (1 ≤ (topHits ["A", "B", "C"] [1, 5, 3]).length
          ∧ (topHits ["A", "B", "C"] [1, 5, 3]).length
            ≤ min 5 (["A", "B", "C"] : List String).length)
      ∧ topHits ["A", "B", "C"] [1, 5, 3] = ["B", "C", "A"] :=
  ⟨by decide, by decide,
   (topHits_spec ["A", "B", "C"] [1, 5, 3] (by decide) (by decide)).1,
   by decide⟩
